import Mathlib

/-!
Verification development for the D-notebook-ai repository.

The definitions below are shallow embeddings, translated from the
JavaScript sources:
  * the Supabase persistence layer (`storeDocumentChunks`,
    `performVectorSearch`),
  * the RAG service (`geminiService.js`: retries, batching, retrieval,
    deduplication, context assembly, references, chat history,
    cosine similarity).
JavaScript numbers that matter only as exact data are modelled as `ℚ`;
non-numeric / NaN / Infinity sentinel values get an explicit inductive
encoding where the code tests for them.  Asynchronous effects (network
calls, timers) are modelled by explicit oracles / response functions, and
thrown exceptions by `Except`.
-/

namespace DNAI

/-! ### Embedding entries and dimension normalization
Embedding vectors arriving from the provider are JS arrays whose entries
should be finite numbers; the code checks
`typeof val !== 'number' || isNaN(val) || !isFinite(val)`. -/

/-- Possible values inside an embedding array: a finite number, `NaN`,
an infinity, or a non-number. -/
inductive EmbEntry where
  | num (q : ℚ)
  | nan
  | inf
  | other
deriving DecidableEq, Repr

/-- Validity test from the source: the entry is a number that is neither
`NaN` nor infinite. -/
def isValidEntry : EmbEntry → Bool
  | .num _ => true
  | _ => false

/-- Expected dimension of every stored or compared embedding
(`EXPECTED_DIMENSIONS` in the source). -/
def EXPECTED_DIMENSIONS : ℕ := 1536

/-- Zero vector used as a fallback embedding (`new Array(1536).fill(0)`). -/
def zeroEmbedding : List EmbEntry := List.replicate EXPECTED_DIMENSIONS (.num 0)

/-- Per-embedding normalization inside `storeDocumentChunks` (part_000):
a missing embedding or one with invalid values becomes the zero vector;
otherwise the vector is truncated to, or zero-padded up to, 1536. -/
def processStoredEmbedding (e : Option (List EmbEntry)) : List EmbEntry :=
  match e with
  | none => zeroEmbedding
  | some arr =>
    if arr.any (fun v => !(isValidEntry v)) then zeroEmbedding
    else if arr.length = EXPECTED_DIMENSIONS then arr
    else if EXPECTED_DIMENSIONS < arr.length then arr.take EXPECTED_DIMENSIONS
    else arr ++ List.replicate (EXPECTED_DIMENSIONS - arr.length) (.num 0)

/-- Pre-processing in `storeDocumentChunks`: when the embeddings array is
missing or its length differs from the chunk count, each position is
refilled with `validEmbeddings[i] || new Array(1536).fill(0)`. -/
def fillEmbeddings (numChunks : ℕ) (embs : Option (List (Option (List EmbEntry)))) :
    List (Option (List EmbEntry)) :=
  match embs with
  | some l =>
    if l.length = numChunks then l
    else (List.range numChunks).map (fun i =>
      match l.get? i with
      | some (some v) => some v
      | _ => some zeroEmbedding)
  | none => (List.range numChunks).map (fun _ => some zeroEmbedding)

/-- Embedding-processing stage of `storeDocumentChunks` (part_000): the
list of vectors actually stored for a document with `numChunks` chunks. -/
def storeDocumentChunksEmbeddings (numChunks : ℕ)
    (embs : Option (List (Option (List EmbEntry)))) : List (List EmbEntry) :=
  (fillEmbeddings numChunks embs).map processStoredEmbedding

/-- Dimension adjustment of the query embedding in `performVectorSearch`
(part_000): truncate when longer than 1536, zero-pad when shorter. -/
def adjustQueryEmbedding (q : List EmbEntry) : List EmbEntry :=
  if q.length = EXPECTED_DIMENSIONS then q
  else if EXPECTED_DIMENSIONS < q.length then q.take EXPECTED_DIMENSIONS
  else q ++ List.replicate (EXPECTED_DIMENSIONS - q.length) (.num 0)

/-- Query-embedding validation stage of `performVectorSearch` (part_000):
a missing or non-array query embedding is rejected, the vector is adjusted
to 1536 components, and invalid values are rejected; the `ok` payload is
the vector actually sent to the persistent-tier search. -/
def performVectorSearchEmbedding (q : Option (List EmbEntry)) :
    Except String (List EmbEntry) :=
  match q with
  | none => .error "Query embedding must be a non-empty array of numbers"
  | some arr =>
    let p := adjustQueryEmbedding arr
    if p.any (fun v => !(isValidEntry v)) then
      .error "Embedding vector contains invalid values"
    else .ok p

theorem processStoredEmbedding_length (e : Option (List EmbEntry)) :
    (processStoredEmbedding e).length = EXPECTED_DIMENSIONS := by
  rcases e with _ | arr
  · simp [processStoredEmbedding, zeroEmbedding]
  · simp only [processStoredEmbedding]
    by_cases h1 : arr.any (fun v => !(isValidEntry v))
    · simp [h1, zeroEmbedding]
    · by_cases h2 : arr.length = EXPECTED_DIMENSIONS
      · simp [h1, h2]
      · by_cases h3 : EXPECTED_DIMENSIONS < arr.length
        · simp [h1, h2, h3]
          omega
        · simp [h1, h2, h3]
          omega

theorem adjustQueryEmbedding_length (q : List EmbEntry) :
    (adjustQueryEmbedding q).length = EXPECTED_DIMENSIONS := by
  simp only [adjustQueryEmbedding]
  by_cases h2 : q.length = EXPECTED_DIMENSIONS
  · simp [h2]
  · by_cases h3 : EXPECTED_DIMENSIONS < q.length
    · simp [h2, h3]
      omega
    · simp [h2, h3]
      omega

/-- C1: every embedding vector stored or used for persistent-tier
comparison has length exactly 1536.  `storeDocumentChunks` stores one
vector per chunk, each truncated to 1536 when longer, zero-padded to 1536
when shorter, and replaced by the all-zero 1536-vector when missing or
containing a non-numeric / NaN / infinite value; `performVectorSearch`
truncates or zero-pads the query embedding the same way before searching,
so every vector it accepts has length 1536. -/
theorem embedding_dimension_invariant :
    (∀ (numChunks : ℕ) (embs : Option (List (Option (List EmbEntry)))),
      (storeDocumentChunksEmbeddings numChunks embs).length = numChunks ∧
      ∀ v ∈ storeDocumentChunksEmbeddings numChunks embs,
        v.length = EXPECTED_DIMENSIONS) ∧
    (∀ arr : List EmbEntry,
      (arr.any (fun v => !(isValidEntry v)) = true →
        processStoredEmbedding (some arr) = zeroEmbedding) ∧
      (arr.any (fun v => !(isValidEntry v)) = false →
        EXPECTED_DIMENSIONS < arr.length →
        processStoredEmbedding (some arr) = arr.take EXPECTED_DIMENSIONS) ∧
      (arr.any (fun v => !(isValidEntry v)) = false →
        arr.length < EXPECTED_DIMENSIONS →
        processStoredEmbedding (some arr) =
          arr ++ List.replicate (EXPECTED_DIMENSIONS - arr.length) (.num 0))) ∧
    processStoredEmbedding none = zeroEmbedding ∧
    (∀ (arr p : List EmbEntry),
      performVectorSearchEmbedding (some arr) = .ok p →
      p = adjustQueryEmbedding arr ∧ p.length = EXPECTED_DIMENSIONS) := by
  refine ⟨?_, ?_, rfl, ?_⟩
  · intro numChunks embs
    constructor
    · have hfill : (fillEmbeddings numChunks embs).length = numChunks := by
        rcases embs with _ | l
        · simp [fillEmbeddings]
        · simp only [fillEmbeddings]
          by_cases h : l.length = numChunks
          · simp [h]
          · simp [h]
      simp [storeDocumentChunksEmbeddings, hfill]
    · intro v hv
      simp only [storeDocumentChunksEmbeddings, List.mem_map] at hv
      obtain ⟨e, _, he⟩ := hv
      rw [← he]
      exact processStoredEmbedding_length e
  · intro arr
    refine ⟨?_, ?_, ?_⟩
    · intro h
      simp [processStoredEmbedding, h]
    · intro h hlen
      have hne : ¬ arr.length = EXPECTED_DIMENSIONS := by omega
      simp [processStoredEmbedding, h, hne, hlen]
    · intro h hlen
      have hne : ¬ arr.length = EXPECTED_DIMENSIONS := by omega
      have hnlt : ¬ EXPECTED_DIMENSIONS < arr.length := by omega
      simp [processStoredEmbedding, h, hne, hnlt]
  · intro arr p hp
    simp only [performVectorSearchEmbedding] at hp
    by_cases h : (adjustQueryEmbedding arr).any (fun v => !(isValidEntry v))
    · simp [h] at hp
    · simp [h] at hp
      refine ⟨hp.symm, ?_⟩
      rw [← hp]
      exact adjustQueryEmbedding_length arr

theorem any_invalid_adjustQueryEmbedding (arr : List EmbEntry)
    (h : arr.any (fun v => !(isValidEntry v)) = false) :
    (adjustQueryEmbedding arr).any (fun v => !(isValidEntry v)) = false := by
  have hmem : ∀ v ∈ adjustQueryEmbedding arr, ¬(!(isValidEntry v)) = true := by
    intro v hv
    simp only [adjustQueryEmbedding] at hv
    split at hv
    · exact List.any_eq_false.mp h v hv
    · split at hv
      · exact List.any_eq_false.mp h v (List.mem_of_mem_take hv)
      · rcases List.mem_append.mp hv with hv | hv
        · exact List.any_eq_false.mp h v hv
        · rw [List.eq_of_mem_replicate hv]
          simp [isValidEntry]
  exact List.any_eq_false.mpr hmem

/-- Witness for C1 at concrete inputs: a 2-entry vector is zero-padded to
1536, and a valid query vector is accepted with length 1536. -/
theorem embedding_dimension_invariant_witness :
    processStoredEmbedding (some [.num 1, .num 2]) =
      [EmbEntry.num 1, EmbEntry.num 2] ++
        List.replicate (EXPECTED_DIMENSIONS - 2) (.num 0) ∧
    (adjustQueryEmbedding [.num 3]).length = EXPECTED_DIMENSIONS := by
  have h0 : ([EmbEntry.num 3]).any (fun v => !(isValidEntry v)) = false := by decide
  have hq : performVectorSearchEmbedding (some [.num 3]) =
      .ok (adjustQueryEmbedding [.num 3]) := by
    simp [performVectorSearchEmbedding,
      any_invalid_adjustQueryEmbedding _ h0]
  exact ⟨(embedding_dimension_invariant.2.1 [.num 1, .num 2]).2.2
      (by decide) (by decide),
    (embedding_dimension_invariant.2.2.2 [.num 3] _ hq).2⟩


/-! ### Documents and deduplication
LangChain documents as used by the retrieval pipeline.  Content is kept as
`List Char` so that prefixes (`substring(0, n)`) are `List.take`.
Metadata fields that the code reads (`source`, `document_title`, `page`,
`pageNumber`) are optional; a database row also carries `content`. -/

/-- Document chunk as it flows through the retrieval pipeline. -/
structure Doc where
  pageContent : List Char
  content : Option (List Char) := none
  source : Option String := none
  docTitle : Option String := none
  page : Option ℕ := none
  pageNumber : Option ℕ := none
deriving DecidableEq, Repr

instance : Inhabited Doc := ⟨⟨[], none, none, none, none, none⟩⟩

/-- Content fingerprint used by `deduplicateDocuments`:
`doc.pageContent.substring(0, 100)`. -/
def contentId (d : Doc) : List Char := d.pageContent.take 100

/-- Recursive worker for `deduplicateDocuments`: `seen` is the set of
fingerprints already kept (the `uniqueDocs` map keys in the source). -/
def dedupGo : List Doc → List (List Char) → List Doc
  | [], _ => []
  | d :: ds, seen =>
    if contentId d ∈ seen then dedupGo ds seen
    else d :: dedupGo ds (contentId d :: seen)

/-- Deduplicate documents by the first 100 characters of their content
(`deduplicateDocuments` in geminiService.js). -/
def deduplicateDocuments (docs : List Doc) : List Doc :=
  dedupGo docs []

theorem dedupGo_sublist (docs : List Doc) :
    ∀ seen, (dedupGo docs seen).Sublist docs := by
  induction docs with
  | nil => intro seen; simp [dedupGo]
  | cons d ds ih =>
    intro seen
    simp only [dedupGo]
    by_cases h : contentId d ∈ seen
    · simp only [if_pos h]
      exact (ih seen).cons d
    · simp only [if_neg h]
      exact (ih (contentId d :: seen)).cons₂ d

theorem dedupGo_keys_nodup (docs : List Doc) :
    ∀ seen, ((dedupGo docs seen).map contentId).Nodup ∧
      ∀ k ∈ seen, k ∉ (dedupGo docs seen).map contentId := by
  induction docs with
  | nil => intro seen; simp [dedupGo]
  | cons d ds ih =>
    intro seen
    by_cases h : contentId d ∈ seen
    · simpa [dedupGo, h] using ih seen
    · have ih' := ih (contentId d :: seen)
      simp only [dedupGo, if_neg h, List.map_cons, List.nodup_cons]
      refine ⟨⟨ih'.2 (contentId d) (by simp), ih'.1⟩, ?_⟩
      intro k hk
      simp only [List.mem_cons, not_or]
      exact ⟨fun he => h (he ▸ hk), ih'.2 k (by simp [hk])⟩

theorem dedupGo_covers (docs : List Doc) :
    ∀ seen, ∀ d ∈ docs, contentId d ∈ seen ∨
      ∃ e ∈ dedupGo docs seen, contentId e = contentId d := by
  induction docs with
  | nil => intro seen d hd; cases hd
  | cons c ds ih =>
    intro seen d hd
    rcases List.mem_cons.mp hd with rfl | hd
    · by_cases h : contentId d ∈ seen
      · exact Or.inl h
      · exact Or.inr ⟨d, by simp [dedupGo, h], rfl⟩
    · by_cases h : contentId c ∈ seen
      · rcases ih seen d hd with hs | ⟨e, he, hke⟩
        · exact Or.inl hs
        · exact Or.inr ⟨e, by simp [dedupGo, h, he], hke⟩
      · rcases ih (contentId c :: seen) d hd with hs | ⟨e, he, hke⟩
        · rcases List.mem_cons.mp hs with hcd | hs
          · exact Or.inr ⟨c, by simp [dedupGo, h], hcd.symm⟩
          · exact Or.inl hs
        · exact Or.inr ⟨e, by simp [dedupGo, h, he], hke⟩

theorem dedupGo_first_occurrence (docs : List Doc) :
    ∀ seen, ∀ e ∈ dedupGo docs seen, contentId e ∉ seen ∧
      ∃ i : Fin docs.length, docs.get i = e ∧
        ∀ j : Fin docs.length, j.1 < i.1 → contentId (docs.get j) ≠ contentId e := by
  induction docs with
  | nil => intro seen e he; cases he
  | cons c ds ih =>
    intro seen e he
    by_cases h : contentId c ∈ seen
    · simp only [dedupGo, if_pos h] at he
      obtain ⟨hseen, i, hi, hfirst⟩ := ih seen e he
      refine ⟨hseen, ⟨i.1 + 1, by simp [Nat.succ_lt_succ i.2]⟩, by simpa using hi, ?_⟩
      intro j hj
      rcases j with ⟨jv, hjlt⟩
      cases jv with
      | zero =>
        intro hc
        have hc' : contentId c = contentId e := by simpa using hc
        exact hseen (hc' ▸ h)
      | succ jv' =>
        have hjv : jv' < i.1 := by simpa using hj
        have := hfirst ⟨jv', by simpa using hjlt⟩ hjv
        simpa using this
    · simp only [dedupGo, if_neg h] at he
      rcases List.mem_cons.mp he with rfl | he
      · exact ⟨h, ⟨0, by simp⟩, by simp, fun j hj => absurd hj (by simp)⟩
      · obtain ⟨hseen, i, hi, hfirst⟩ := ih (contentId c :: seen) e he
        have hseen' : contentId e ∉ seen := fun hx => hseen (by simp [hx])
        have hnec : contentId c ≠ contentId e := fun hx => hseen (by simp [hx])
        refine ⟨hseen', ⟨i.1 + 1, by simp [Nat.succ_lt_succ i.2]⟩, by simpa using hi, ?_⟩
        intro j hj
        rcases j with ⟨jv, hjlt⟩
        cases jv with
        | zero => simpa using hnec
        | succ jv' =>
          have hjv : jv' < i.1 := by simpa using hj
          have := hfirst ⟨jv', by simpa using hjlt⟩ hjv
          simpa using this

theorem dedupGo_of_nodup (docs : List Doc) :
    ∀ seen, (docs.map contentId).Nodup →
      (∀ d ∈ docs, contentId d ∉ seen) → dedupGo docs seen = docs := by
  induction docs with
  | nil => intro seen _ _; rfl
  | cons c ds ih =>
    intro seen hnd hdisj
    have hc : contentId c ∉ seen := hdisj c (by simp)
    have hnd' : (contentId c :: ds.map contentId).Nodup := by simpa using hnd
    simp only [dedupGo, if_neg hc]
    congr 1
    apply ih
    · simpa using hnd'.of_cons
    · intro d hd
      simp only [List.mem_cons, not_or]
      have hcm : contentId c ∉ ds.map contentId := (List.nodup_cons.mp hnd').1
      exact ⟨fun he => hcm (he ▸ List.mem_map_of_mem contentId hd), hdisj d (by simp [hd])⟩

/-- C6: deduplication keys results on the first 100 characters of chunk
content.  `deduplicateDocuments` returns an order-preserving sublist of
its input whose fingerprints are pairwise distinct, every input
fingerprint is represented, each kept document is the first occurrence of
its fingerprint, the function is idempotent, and two documents sharing a
100-character prefix collapse to the first of them. -/
theorem deduplicateDocuments_spec :
    (∀ docs : List Doc, (deduplicateDocuments docs).Sublist docs) ∧
    (∀ docs : List Doc, ((deduplicateDocuments docs).map contentId).Nodup) ∧
    (∀ docs : List Doc, ∀ d ∈ docs,
      ∃ e ∈ deduplicateDocuments docs, contentId e = contentId d) ∧
    (∀ docs : List Doc, ∀ e ∈ deduplicateDocuments docs,
      ∃ i : Fin docs.length, docs.get i = e ∧
        ∀ j : Fin docs.length, j.1 < i.1 →
          contentId (docs.get j) ≠ contentId e) ∧
    (∀ docs : List Doc,
      deduplicateDocuments (deduplicateDocuments docs) =
        deduplicateDocuments docs) ∧
    (∀ d1 d2 : Doc, contentId d1 = contentId d2 →
      deduplicateDocuments [d1, d2] = [d1]) := by
  refine ⟨?_, ?_, ?_, ?_, ?_, ?_⟩
  · intro docs
    exact dedupGo_sublist docs []
  · intro docs
    exact (dedupGo_keys_nodup docs []).1
  · intro docs d hd
    rcases dedupGo_covers docs [] d hd with hs | h
    · cases hs
    · exact h
  · intro docs e he
    exact (dedupGo_first_occurrence docs [] e he).2
  · intro docs
    apply dedupGo_of_nodup
    · exact (dedupGo_keys_nodup docs []).1
    · intro d _ hd
      cases hd
  · intro d1 d2 h
    simp [deduplicateDocuments, dedupGo, h]

/-- Witness for C6: two concrete documents sharing a (short) content,
hence a shared 100-character prefix, collapse into the first one. -/
theorem deduplicateDocuments_spec_witness :
    deduplicateDocuments
      [{ pageContent := ['a', 'b'] }, { pageContent := ['a', 'b'], page := some 3 }] =
      [{ pageContent := ['a', 'b'] }] := by
  exact deduplicateDocuments_spec.2.2.2.2.2
    { pageContent := ['a', 'b'] } { pageContent := ['a', 'b'], page := some 3 } (by decide)


/-! ### Context assembly and citations (formatContextFromDocs)
JavaScript `||` on strings treats the empty string as falsy; on numbers it
treats `0` as falsy.  The helpers below reproduce that. -/

/-- JavaScript `a || b` where `a` is an optional string and an empty
string is falsy. -/
def jsOrStr (a b : Option String) : Option String :=
  match a with
  | some s => if s = "" then b else some s
  | none => b

/-- JavaScript `a || b` where `a` is an optional number and `0` is falsy. -/
def jsOrNum (a b : Option ℕ) : Option ℕ :=
  match a with
  | some n => if n = 0 then b else some n
  | none => b

/-- JavaScript truthiness of an optional number. -/
def jsTruthyNum : Option ℕ → Bool
  | some n => n ≠ 0
  | none => false

/-- JavaScript `a || b` where `a` is a character-list string and the empty
string is falsy. -/
def jsOrChars (a : List Char) (b : Option (List Char)) : Option (List Char) :=
  if a.isEmpty then b else some a

/-- Citation entry pushed by `formatContextFromDocs`. -/
structure Citation where
  source : String
  page : Option ℕ
  text : List Char
deriving DecidableEq, Repr

/-- Source title of a chunk:
`doc.metadata?.source || doc.metadata?.document_title || 'Unknown Source'`. -/
def sourceOf (d : Doc) : String :=
  (jsOrStr d.source (jsOrStr d.docTitle (some "Unknown Source"))).getD ""

/-- Page of a chunk: `doc.metadata?.page || doc.metadata?.pageNumber`. -/
def pageOf (d : Doc) : Option ℕ :=
  jsOrNum d.page d.pageNumber

/-- Citation label shown in a block heading:
`page ? source + ' (halaman ' + page + ')' : source`. -/
def citationLabel (d : Doc) : String :=
  if jsTruthyNum (pageOf d) then
    sourceOf d ++ " (halaman " ++ toString ((pageOf d).getD 0) ++ ")"
  else sourceOf d

/-- Excerpt stored in a citation:
`doc.pageContent?.substring(0,200) || doc.content?.substring(0,200) || ""`. -/
def excerptOf (d : Doc) : List Char :=
  (jsOrChars (d.pageContent.take 200) (d.content.map (fun c => c.take 200))).getD []

/-- Body of a context block: `doc.pageContent || doc.content`; when both
are falsy the template literal renders `undefined`. -/
def blockContentOf (d : Doc) : List Char :=
  match jsOrChars d.pageContent d.content with
  | some s => s
  | none => "undefined".data

/-- Labeled context block for the chunk at 0-based position `idx`:
`--- Dokumen #(idx+1): <label> ---\n<content>\n`. -/
def mkBlock (idx : ℕ) (d : Doc) : String :=
  "--- Dokumen #" ++ toString (idx + 1) ++ ": " ++ citationLabel d ++ " ---\n"
    ++ String.mk (blockContentOf d) ++ "\n"

/-- Citation pushed for a chunk. -/
def mkCitation (d : Doc) : Citation :=
  { source := sourceOf d, page := pageOf d, text := excerptOf d }

/-- Shallow embedding of `formatContextFromDocs` (geminiService.js):
returns the assembled context string and the citations array after the
per-chunk pushes. -/
def formatContextFromDocs (docs : List Doc) (citations : List Citation) :
    String × List Citation :=
  if docs.isEmpty then ("", citations)
  else
    (String.intercalate "\n\n" (docs.enum.map (fun p => mkBlock p.1 p.2)),
      citations ++ docs.enum.map (fun p => mkCitation p.2))

theorem excerptOf_length_le (d : Doc) : (excerptOf d).length ≤ 200 := by
  simp only [excerptOf, jsOrChars]
  by_cases h : (d.pageContent.take 200).isEmpty
  · rcases d.content with _ | c
    · simp [h]
    · simp only [if_pos h, Option.map_some, Option.getD_some]
      simp [List.length_take]
  · simp only [if_neg h, Option.getD_some]
    simp [List.length_take]

/-- C7: context assembly is a bijection between context blocks and
citations.  For every chunk list, `formatContextFromDocs` appends exactly
one citation per chunk, in input order; the citation at offset `i`
carries the source title and page of chunk `i` and an excerpt of at most
200 characters of its content; and the context is the `"\n\n"`-join of
one labeled block per chunk, the block at position `i` carrying ordinal
`i + 1` and the same source label. -/
theorem enumMap_get? {β : Type} (f : ℕ → Doc → β) (docs : List Doc) (i : ℕ)
    (hi : i < docs.length) :
    (docs.enum.map (fun p => f p.1 p.2)).get? i = some (f i (docs.getD i default)) := by
  rw [List.get?_map, List.get?_enum, List.get?_eq_get hi]
  simp [List.getD_eq_getElem?_getD, List.getElem?_eq_getElem hi, List.get_eq_getElem]

theorem enumMap_eq_rangeMap {β : Type} (f : ℕ → Doc → β) (docs : List Doc) :
    docs.enum.map (fun p => f p.1 p.2) =
      (List.range docs.length).map (fun i => f i (docs.getD i default)) := by
  apply List.ext_get?
  intro i
  by_cases hi : i < docs.length
  · rw [enumMap_get? f docs i hi, List.get?_map, List.get?_range hi]
    rfl
  · have h1 : (docs.enum.map (fun p => f p.1 p.2)).get? i = none := by
      rw [List.get?_eq_none]
      simp only [List.length_map, List.enum_length]
      omega
    have h2 : ((List.range docs.length).map
        (fun i => f i (docs.getD i default))).get? i = none := by
      rw [List.get?_eq_none]
      simp only [List.length_map, List.length_range]
      omega
    rw [h1, h2]

/-- C7: context assembly is a bijection between context blocks and
citations.  For every chunk list, `formatContextFromDocs` appends exactly
one citation per chunk, in input order; the citation at offset `i`
carries the source title and page of chunk `i` and an excerpt of at most
200 characters of its content; and the context is the `"\n\n"`-join of
one labeled block per chunk, the block at position `i` carrying ordinal
`i + 1` and the same source label. -/
theorem formatContextFromDocs_spec :
    ∀ (docs : List Doc) (citations : List Citation),
      ((formatContextFromDocs docs citations).2.length =
        citations.length + docs.length) ∧
      (∀ i, i < docs.length →
        (formatContextFromDocs docs citations).2.get? (citations.length + i) =
          some { source := sourceOf (docs.getD i default),
                 page := pageOf (docs.getD i default),
                 text := excerptOf (docs.getD i default) }) ∧
      (∀ i, i < docs.length → (excerptOf (docs.getD i default)).length ≤ 200) ∧
      (docs ≠ [] →
        (formatContextFromDocs docs citations).1 =
          String.intercalate "\n\n"
            ((List.range docs.length).map (fun i => mkBlock i (docs.getD i default)))) := by
  intro docs citations
  by_cases hd : docs.isEmpty
  · have hnil : docs = [] := List.isEmpty_iff.mp hd
    subst hnil
    refine ⟨by simp [formatContextFromDocs], ?_, ?_, ?_⟩
    · intro i hi; cases hi
    · intro i hi; cases hi
    · intro h; cases h rfl
  · have hfc : formatContextFromDocs docs citations =
        (String.intercalate "\n\n" (docs.enum.map (fun p => mkBlock p.1 p.2)),
          citations ++ docs.enum.map (fun p => mkCitation p.2)) := by
      simp [formatContextFromDocs, hd]
    refine ⟨?_, ?_, ?_, ?_⟩
    · rw [hfc]
      simp [List.enum_length]
    · intro i hi
      rw [hfc]
      simp only
      rw [List.get?_append_right (Nat.le_add_right _ _)]
      have hsub : citations.length + i - citations.length = i := by omega
      rw [hsub]
      exact enumMap_get? (fun _ d => mkCitation d) docs i hi
    · intro i _
      exact excerptOf_length_le _
    · intro _
      rw [hfc]
      simp only
      rw [enumMap_eq_rangeMap (fun i d => mkBlock i d) docs]

/-- Witness for C7: a single concrete chunk yields exactly one appended
citation, aligned with its block, with the chunk source, page and
excerpt. -/
theorem formatContextFromDocs_spec_witness :
    (formatContextFromDocs
        [{ pageContent := ['h', 'i'], source := some "Doc A", page := some 2 }]
        []).2.length = ([] : List Citation).length + 1 ∧
    (formatContextFromDocs
        [{ pageContent := ['h', 'i'], source := some "Doc A", page := some 2 }]
        []).2.get? (([] : List Citation).length + 0) =
      some { source := "Doc A", page := some 2, text := ['h', 'i'] } := by
  have h := formatContextFromDocs_spec
    [{ pageContent := ['h', 'i'], source := some "Doc A", page := some 2 }] []
  refine ⟨h.1, ?_⟩
  have h2 := h.2.1 0 (by decide)
  simpa using h2


/-! ### References section (ensureReferences)
The regex `/\n\nREFEREN[CS]I:|\n\nSUMBER:|\n\nREFERENCES:/i` is a
case-insensitive substring test; string containment is implemented over
character lists. -/

/-- Containment of `pat` as a contiguous subsequence of `s`. -/
def containsSeq (pat : List Char) : List Char → Bool
  | [] => pat.isEmpty
  | c :: rest => pat.isPrefixOf (c :: rest) || containsSeq pat rest

/-- ASCII lower-casing of one character, as the case-insensitive regex
flag behaves on the ASCII patterns involved. -/
def lowerChar (c : Char) : Char :=
  if 'A' ≤ c ∧ c ≤ 'Z' then Char.ofNat (c.toNat + 32) else c

/-- Detection of an existing references section, matching the source
regex case-insensitively. -/
def hasRefHeader (s : String) : Bool :=
  containsSeq "\n\nreferensi:".data (s.data.map lowerChar) ||
  containsSeq "\n\nreferenci:".data (s.data.map lowerChar) ||
  containsSeq "\n\nsumber:".data (s.data.map lowerChar) ||
  containsSeq "\n\nreferences:".data (s.data.map lowerChar)

/-- Deduplication key of a citation:
`citation.source + (citation.page ? ' (halaman ' + page + ')' : '')`. -/
def sourceKey (c : Citation) : String :=
  c.source ++ (if jsTruthyNum c.page then " (halaman " ++ toString (c.page.getD 0) ++ ")" else "")

/-- Worker mirroring the `uniqueSources` object built by
`ensureReferences`: one `(key, line)` entry per first-seen key, the line
numbered with the citation index at which the key first appeared. -/
def refEntries : List Citation → ℕ → List String → List (String × String)
  | [], _, _ => []
  | c :: cs, idx, seen =>
    if sourceKey c ∈ seen then refEntries cs (idx + 1) seen
    else (sourceKey c, "[" ++ toString (idx + 1) ++ "] " ++ sourceKey c) ::
      refEntries cs (idx + 1) (sourceKey c :: seen)

/-- Shallow embedding of `ensureReferences` (geminiService.js). -/
def ensureReferences (response : Option String) (citations : List Citation) : String :=
  match response with
  | none => ""
  | some s =>
    if s = "" then ""
    else if hasRefHeader s then s
    else if citations.isEmpty then s
    else s ++ "\n\nREFERENSI:\n" ++
      String.intercalate "\n" ((refEntries citations 0 []).map Prod.snd)

/-- Modelled from the spec sentence of claim C8 only, for comparison: a
references section whose distinct keys are numbered consecutively
`1..k` in first-seen order. -/
def refEntriesSpec : List Citation → ℕ → List String → List String
  | [], _, _ => []
  | c :: cs, next, seen =>
    if sourceKey c ∈ seen then refEntriesSpec cs next seen
    else ("[" ++ toString (next + 1) ++ "] " ++ sourceKey c) ::
      refEntriesSpec cs (next + 1) (sourceKey c :: seen)

/-- Spec-claimed variant of `ensureReferences` with consecutive
numbering. -/
def ensureReferencesSpec (response : Option String) (citations : List Citation) : String :=
  match response with
  | none => ""
  | some s =>
    if s = "" then ""
    else if hasRefHeader s then s
    else if citations.isEmpty then s
    else s ++ "\n\nREFERENSI:\n" ++
      String.intercalate "\n" (refEntriesSpec citations 0 [])

theorem refEntries_keys_nodup (cits : List Citation) :
    ∀ idx seen, ((refEntries cits idx seen).map Prod.fst).Nodup ∧
      ∀ k ∈ seen, k ∉ (refEntries cits idx seen).map Prod.fst := by
  induction cits with
  | nil => intro idx seen; simp [refEntries]
  | cons c cs ih =>
    intro idx seen
    by_cases h : sourceKey c ∈ seen
    · simpa [refEntries, h] using ih (idx + 1) seen
    · have ih' := ih (idx + 1) (sourceKey c :: seen)
      simp only [refEntries, if_neg h, List.map_cons, List.nodup_cons]
      refine ⟨⟨ih'.2 (sourceKey c) (by simp), ih'.1⟩, ?_⟩
      intro k hk
      simp only [List.mem_cons, not_or]
      exact ⟨fun he => h (he ▸ hk), ih'.2 k (by simp [hk])⟩

theorem refEntries_covers (cits : List Citation) :
    ∀ idx seen, ∀ c ∈ cits, sourceKey c ∈ seen ∨
      sourceKey c ∈ (refEntries cits idx seen).map Prod.fst := by
  induction cits with
  | nil => intro idx seen c hc; cases hc
  | cons b cs ih =>
    intro idx seen c hc
    rcases List.mem_cons.mp hc with rfl | hc
    · by_cases h : sourceKey c ∈ seen
      · exact Or.inl h
      · exact Or.inr (by simp [refEntries, h])
    · by_cases h : sourceKey b ∈ seen
      · rcases ih (idx + 1) seen c hc with hs | hm
        · exact Or.inl hs
        · exact Or.inr (by simp [refEntries, h]; simpa using hm)
      · rcases ih (idx + 1) (sourceKey b :: seen) c hc with hs | hm
        · rcases List.mem_cons.mp hs with hb | hs
          · exact Or.inr (by simp [refEntries, h, hb])
          · exact Or.inl hs
        · exact Or.inr (by simp [refEntries, h]; right; simpa using hm)

theorem refEntries_numbering (cits : List Citation) :
    ∀ idx seen, ∀ k line, (k, line) ∈ refEntries cits idx seen →
      k ∉ seen ∧
      ∃ i : Fin cits.length, sourceKey (cits.get i) = k ∧
        (∀ j : Fin cits.length, j.1 < i.1 → sourceKey (cits.get j) ≠ k) ∧
        line = "[" ++ toString (idx + i.1 + 1) ++ "] " ++ k := by
  induction cits with
  | nil => intro idx seen k line h; cases h
  | cons c cs ih =>
    intro idx seen k line h
    by_cases hc : sourceKey c ∈ seen
    · simp only [refEntries, if_pos hc] at h
      obtain ⟨hks, i, hk, hfirst, hline⟩ := ih (idx + 1) seen k line h
      refine ⟨hks, ⟨i.1 + 1, by simp [Nat.succ_lt_succ i.2]⟩, by simpa using hk, ?_, ?_⟩
      · intro j hj
        rcases j with ⟨jv, hjlt⟩
        cases jv with
        | zero =>
          intro he
          have : sourceKey c = k := by simpa using he
          exact hks (this ▸ hc)
        | succ jv' =>
          have hjv : jv' < i.1 := by simpa using hj
          have := hfirst ⟨jv', by simpa using hjlt⟩ hjv
          simpa using this
      · have harith : idx + (i.1 + 1) + 1 = idx + 1 + i.1 + 1 := by omega
        simpa [harith] using hline
    · simp only [refEntries, if_neg hc] at h
      rcases List.mem_cons.mp h with he | he
      · have hk : k = sourceKey c := (Prod.mk.injEq .. ▸ he).1
        have hline : line = "[" ++ toString (idx + 1) ++ "] " ++ sourceKey c :=
          (Prod.mk.injEq .. ▸ he).2
        subst hk
        refine ⟨hc, ⟨0, by simp⟩, by simp, fun j hj => absurd hj (by simp), ?_⟩
        simpa using hline
      · obtain ⟨hks, i, hk, hfirst, hline⟩ := ih (idx + 1) (sourceKey c :: seen) k line he
        have hks' : k ∉ seen := fun hx => hks (by simp [hx])
        have hnec : sourceKey c ≠ k := fun hx => hks (by simp [hx])
        refine ⟨hks', ⟨i.1 + 1, by simp [Nat.succ_lt_succ i.2]⟩, by simpa using hk, ?_, ?_⟩
        · intro j hj
          rcases j with ⟨jv, hjlt⟩
          cases jv with
          | zero => simpa using hnec
          | succ jv' =>
            have hjv : jv' < i.1 := by simpa using hj
            have := hfirst ⟨jv', by simpa using hjlt⟩ hjv
            simpa using this
        · have harith : idx + (i.1 + 1) + 1 = idx + 1 + i.1 + 1 := by omega
          simpa [harith] using hline


/-- C8 counterexample: with citations `[A, A, B]` the appended references
section numbers the distinct keys `[1]` and `[3]` (the index of each
key's first occurrence in the citations array), not consecutively
`[1]`, `[2]` as the claim states; the consecutive-numbering variant
modelled from the spec disagrees with the code on this input. -/
theorem ensureReferences_counterexample :
    ensureReferences (some "ans")
        [⟨"A", none, []⟩, ⟨"A", none, []⟩, ⟨"B", none, []⟩] =
      "ans\n\nREFERENSI:\n[1] A\n[3] B" ∧
    ensureReferencesSpec (some "ans")
        [⟨"A", none, []⟩, ⟨"A", none, []⟩, ⟨"B", none, []⟩] =
      "ans\n\nREFERENSI:\n[1] A\n[2] B" ∧
    ensureReferences (some "ans")
        [⟨"A", none, []⟩, ⟨"A", none, []⟩, ⟨"B", none, []⟩] ≠
      ensureReferencesSpec (some "ans")
        [⟨"A", none, []⟩, ⟨"A", none, []⟩, ⟨"B", none, []⟩] := by
  refine ⟨by decide, by decide, by decide⟩

/-- C8 (amended): an answer that already contains a references header is
returned unchanged; with an empty citation list the answer is returned
unchanged; otherwise a references section is appended with exactly one
line per distinct rendered source-page key, in first-seen order, each
line numbered with one plus the index in the citations array at which its
key first occurs (hence first-seen order but not necessarily
consecutive). -/
theorem ensureReferences_spec :
    (∀ (s : String) (cits : List Citation), hasRefHeader s = true →
      ensureReferences (some s) cits = s) ∧
    (∀ s : String, s ≠ "" → ensureReferences (some s) [] = s) ∧
    (∀ (s : String) (cits : List Citation), s ≠ "" → hasRefHeader s = false →
      cits ≠ [] →
      ensureReferences (some s) cits =
        s ++ "\n\nREFERENSI:\n" ++
          String.intercalate "\n" ((refEntries cits 0 []).map Prod.snd)) ∧
    (∀ cits : List Citation, ((refEntries cits 0 []).map Prod.fst).Nodup) ∧
    (∀ (cits : List Citation), ∀ c ∈ cits,
      sourceKey c ∈ (refEntries cits 0 []).map Prod.fst) ∧
    (∀ (cits : List Citation) (k line : String), (k, line) ∈ refEntries cits 0 [] →
      ∃ i : Fin cits.length, sourceKey (cits.get i) = k ∧
        (∀ j : Fin cits.length, j.1 < i.1 → sourceKey (cits.get j) ≠ k) ∧
        line = "[" ++ toString (i.1 + 1) ++ "] " ++ k) := by
  refine ⟨?_, ?_, ?_, ?_, ?_, ?_⟩
  · intro s cits h
    by_cases hs : s = ""
    · subst hs
      cases (by decide : hasRefHeader "" = false) ▸ h
    · simp [ensureReferences, hs, h]
  · intro s hs
    by_cases h : hasRefHeader s
    · simp [ensureReferences, hs, h]
    · simp [ensureReferences, hs, h]
  · intro s cits hs hh hc
    simp [ensureReferences, hs, hh, hc]
  · intro cits
    exact (refEntries_keys_nodup cits 0 []).1
  · intro cits c hc
    rcases refEntries_covers cits 0 [] c hc with h | h
    · cases h
    · exact h
  · intro cits k line h
    obtain ⟨_, i, hk, hfirst, hline⟩ := refEntries_numbering cits 0 [] k line h
    exact ⟨i, hk, hfirst, by simpa using hline⟩

/-- Witness for C8 at a concrete input: a single citation with source
`A` yields the appended section `REFERENSI:` with the single line
`[1] A`. -/
theorem ensureReferences_spec_witness :
    ensureReferences (some "ans") [⟨"A", none, []⟩] =
      "ans\n\nREFERENSI:\n[1] A" := by
  have h := ensureReferences_spec.2.2.1 "ans" [⟨"A", none, []⟩]
    (by decide) (by decide) (by decide)
  rw [h]
  decide


/-! ### Chat history formatting -/

/-- Conversation message as stored by the chat system. -/
structure ChatMsg where
  role : String
  content : String
deriving DecidableEq, Repr

/-- Message in the shape the Gemini API expects. -/
structure GeminiMsg where
  role : String
  parts : List String
deriving DecidableEq, Repr

/-- Shallow embedding of `formatChatHistory` (geminiService.js): keep
only `user` / `assistant` messages, map `assistant` to `model`.  The
source applies no length cap. -/
def formatChatHistory (h : Option (List ChatMsg)) : List GeminiMsg :=
  match h with
  | none => []
  | some l =>
    if l.isEmpty then []
    else (l.filter (fun m => m.role == "user" || m.role == "assistant")).map
      (fun m => ⟨if m.role == "user" then "user" else "model", [m.content]⟩)

/-- Cap applied by the caller (`MAX_CONTEXT_MESSAGES` in
useChatSystem.js). -/
def MAX_CONTEXT_MESSAGES : ℕ := 10

/-- Shallow embedding of `getContextMessages` (useChatSystem.js):
filter to `user` / `assistant` roles and keep the most recent 10
(`slice(-10)`). -/
def getContextMessages (msgs : List ChatMsg) : List ChatMsg :=
  (msgs.filter (fun m => m.role == "user" || m.role == "assistant")).drop
    ((msgs.filter (fun m => m.role == "user" || m.role == "assistant")).length -
      MAX_CONTEXT_MESSAGES)

/-- C9 counterexample: `formatChatHistory` itself applies no cap — eleven
user messages come back as eleven formatted messages, not ten. -/
theorem formatChatHistory_counterexample :
    (formatChatHistory (some (List.replicate 11 ⟨"user", "x"⟩))).length = 11 ∧
    ¬ ((formatChatHistory (some (List.replicate 11 ⟨"user", "x"⟩))).length ≤ 10) := by
  refine ⟨by decide, by decide⟩

/-- C9 (amended): `formatChatHistory` keeps only messages whose role is
`user` or `assistant`, in original order, rendering `assistant` as
`model`, with no cap of its own; the most-recent-10 cap is applied by the
caller `getContextMessages` before the history reaches
`formatChatHistory`. -/
theorem formatChatHistory_spec :
    formatChatHistory none = [] ∧
    (∀ l : List ChatMsg, formatChatHistory (some l) =
      (l.filter (fun m => m.role == "user" || m.role == "assistant")).map
        (fun m => ⟨if m.role == "user" then "user" else "model", [m.content]⟩)) ∧
    (∀ (l : List ChatMsg) (g : GeminiMsg), g ∈ formatChatHistory (some l) →
      g.role = "user" ∨ g.role = "model") ∧
    (∀ l : List ChatMsg, (formatChatHistory (some l)).length =
      (l.filter (fun m => m.role == "user" || m.role == "assistant")).length) ∧
    (∀ msgs : List ChatMsg,
      (getContextMessages msgs).length ≤ MAX_CONTEXT_MESSAGES ∧
      ∃ k, getContextMessages msgs =
        (msgs.filter (fun m => m.role == "user" || m.role == "assistant")).drop k) := by
  refine ⟨rfl, ?_, ?_, ?_, ?_⟩
  · intro l
    rcases l with _ | ⟨m, l⟩
    · rfl
    · simp [formatChatHistory]
  · intro l g hg
    have hl : formatChatHistory (some l) =
        (l.filter (fun m => m.role == "user" || m.role == "assistant")).map
          (fun m => ⟨if m.role == "user" then "user" else "model", [m.content]⟩) := by
      rcases l with _ | ⟨m, l⟩
      · rfl
      · simp [formatChatHistory]
    rw [hl] at hg
    obtain ⟨m, _, hm⟩ := List.mem_map.mp hg
    by_cases hu : m.role == "user"
    · left
      rw [← hm]
      simp [hu]
    · right
      rw [← hm]
      simp [hu]
  · intro l
    rcases l with _ | ⟨m, l⟩
    · rfl
    · simp [formatChatHistory]
  · intro msgs
    refine ⟨?_, _, rfl⟩
    simp only [getContextMessages, List.length_drop]
    omega

/-- Witness for C9: the role-mapping clause applied at a concrete
assistant message, which is rendered with role `model`. -/
theorem formatChatHistory_spec_witness :
    (⟨"model", ["hi"]⟩ : GeminiMsg).role = "user" ∨
    (⟨"model", ["hi"]⟩ : GeminiMsg).role = "model" := by
  exact formatChatHistory_spec.2.2.1 [⟨"assistant", "hi"⟩] ⟨"model", ["hi"]⟩ (by decide)

/-! ### Cosine similarity -/

/-- Sum of squares of a vector (the `mag` accumulators before `sqrt`). -/
def sumsq (v : List ℚ) : ℚ := (v.map (fun x => x * x)).sum

/-- Dot product of two vectors, over the common prefix as the JS loop
reads `vec2[i]` for `i < vec1.length` only after the length guard. -/
def dotp (v w : List ℚ) : ℚ := (List.zipWith (fun a b => a * b) v w).sum

/-- Shallow embedding of `cosineSimilarity` (geminiService.js): `none`
stands for a non-array argument; magnitudes are real square roots of the
rational sums of squares. -/
noncomputable def cosineSimilarity (v1 v2 : Option (List ℚ)) : ℝ :=
  match v1, v2 with
  | some a, some b =>
    if a.length ≠ b.length then 0
    else if Real.sqrt ((sumsq a : ℚ) : ℝ) = 0 ∨ Real.sqrt ((sumsq b : ℚ) : ℝ) = 0 then 0
    else ((dotp a b : ℚ) : ℝ) / (Real.sqrt ((sumsq a : ℚ) : ℝ) * Real.sqrt ((sumsq b : ℚ) : ℝ))
  | _, _ => 0

theorem sumsq_nonneg (v : List ℚ) : 0 ≤ sumsq v := by
  apply List.sum_nonneg
  intro x hx
  obtain ⟨y, _, hy⟩ := List.mem_map.mp hx
  rw [← hy]
  exact mul_self_nonneg y

theorem sqrt_sumsq_eq_zero_iff (v : List ℚ) :
    Real.sqrt ((sumsq v : ℚ) : ℝ) = 0 ↔ sumsq v = 0 := by
  rw [Real.sqrt_eq_zero (by exact_mod_cast sumsq_nonneg v)]
  exact_mod_cast Iff.rfl

theorem dotp_comm (a b : List ℚ) : dotp a b = dotp b a := by
  unfold dotp
  rw [List.zipWith_comm_of_comm]
  intro x y
  exact mul_comm x y

theorem sumsq_replicate_zero (n : ℕ) : sumsq (List.replicate n 0) = 0 := by
  induction n with
  | zero => rfl
  | succ k ih => simp [List.replicate_succ, sumsq] at ih ⊢

/-- C10: `cosineSimilarity` is total and never divides by zero — it
returns 0 when either argument is not an array, when the lengths differ,
or when either vector has zero magnitude (in particular the all-zero
fallback embedding has similarity 0 with everything); for equal-length
vectors of nonzero magnitude it returns the dot product divided by the
product of the magnitudes; and it is symmetric. -/
theorem cosineSimilarity_spec :
    (∀ v2, cosineSimilarity none v2 = 0) ∧
    (∀ v1, cosineSimilarity v1 none = 0) ∧
    (∀ a b : List ℚ, a.length ≠ b.length → cosineSimilarity (some a) (some b) = 0) ∧
    (∀ a b : List ℚ, sumsq a = 0 ∨ sumsq b = 0 → cosineSimilarity (some a) (some b) = 0) ∧
    (∀ (n : ℕ) (v2 : Option (List ℚ)),
      cosineSimilarity (some (List.replicate n 0)) v2 = 0) ∧
    (∀ a b : List ℚ, a.length = b.length → sumsq a ≠ 0 → sumsq b ≠ 0 →
      cosineSimilarity (some a) (some b) =
        ((dotp a b : ℚ) : ℝ) /
          (Real.sqrt ((sumsq a : ℚ) : ℝ) * Real.sqrt ((sumsq b : ℚ) : ℝ))) ∧
    (∀ v1 v2, cosineSimilarity v1 v2 = cosineSimilarity v2 v1) := by
  have hzero : ∀ a b : List ℚ, sumsq a = 0 ∨ sumsq b = 0 →
      cosineSimilarity (some a) (some b) = 0 := by
    intro a b h
    simp only [cosineSimilarity]
    by_cases hl : a.length ≠ b.length
    · simp [hl]
    · have hor : Real.sqrt ((sumsq a : ℚ) : ℝ) = 0 ∨ Real.sqrt ((sumsq b : ℚ) : ℝ) = 0 := by
        rcases h with h | h
        · exact Or.inl ((sqrt_sumsq_eq_zero_iff a).mpr h)
        · exact Or.inr ((sqrt_sumsq_eq_zero_iff b).mpr h)
      simp [hl, hor]
  refine ⟨fun v2 => ?_, fun v1 => ?_, ?_, hzero, ?_, ?_, ?_⟩
  · rcases v2 with _ | b <;> rfl
  · rcases v1 with _ | a <;> rfl
  · intro a b h
    simp [cosineSimilarity, h]
  · intro n v2
    rcases v2 with _ | b
    · rfl
    · exact hzero _ _ (Or.inl (sumsq_replicate_zero n))
  · intro a b hl ha hb
    have hsa : ¬ Real.sqrt ((sumsq a : ℚ) : ℝ) = 0 := fun h =>
      ha ((sqrt_sumsq_eq_zero_iff a).mp h)
    have hsb : ¬ Real.sqrt ((sumsq b : ℚ) : ℝ) = 0 := fun h =>
      hb ((sqrt_sumsq_eq_zero_iff b).mp h)
    simp [cosineSimilarity, hl, hsa, hsb]
  · intro v1 v2
    rcases v1 with _ | a <;> rcases v2 with _ | b
    · rfl
    · rfl
    · rfl
    · simp only [cosineSimilarity]
      by_cases hl : a.length = b.length
      · have hl' : ¬ a.length ≠ b.length := by simpa using hl
        have hl'' : ¬ b.length ≠ a.length := by simp [hl]
        by_cases hor : Real.sqrt ((sumsq a : ℚ) : ℝ) = 0 ∨ Real.sqrt ((sumsq b : ℚ) : ℝ) = 0
        · have hor' : Real.sqrt ((sumsq b : ℚ) : ℝ) = 0 ∨ Real.sqrt ((sumsq a : ℚ) : ℝ) = 0 :=
            hor.symm
          simp [hl', hl'', hor, hor']
        · have hor' : ¬ (Real.sqrt ((sumsq b : ℚ) : ℝ) = 0 ∨
              Real.sqrt ((sumsq a : ℚ) : ℝ) = 0) := fun h => hor h.symm
          simp only [hl', hl'', if_neg hor, if_neg hor', if_false]
          rw [dotp_comm, mul_comm]
      · have h1 : a.length ≠ b.length := hl
        have h2 : b.length ≠ a.length := fun h => hl h.symm
        simp [h1, h2]

/-- Witness for C10 at concrete inputs: mismatched lengths give 0, and
equal-length nonzero vectors give the explicit quotient form. -/
theorem cosineSimilarity_spec_witness :
    cosineSimilarity (some [1]) (some [1, 2]) = 0 ∧
    cosineSimilarity (some [1, 0]) (some [0, 1]) =
      ((dotp [1, 0] [0, 1] : ℚ) : ℝ) /
        (Real.sqrt ((sumsq [1, 0] : ℚ) : ℝ) * Real.sqrt ((sumsq [0, 1] : ℚ) : ℝ)) := by
  refine ⟨cosineSimilarity_spec.2.2.1 [1] [1, 2] (by decide), ?_⟩
  exact cosineSimilarity_spec.2.2.2.2.2.1 [1, 0] [0, 1] (by decide)
    (by norm_num [sumsq]) (by norm_num [sumsq])


/-! ### Advanced retry with exponential backoff
`retryWithAdvancedBackoff` in geminiService.js.  The operation is
modelled as a function from the attempt number to an outcome; the random
jitter draw of each attempt is a given stream `r` with values in
`[0, 1)`. -/

/-- Error object shape the retry loop inspects: `status`,
`response.status` and `message`. -/
structure JsError where
  status : Option ℕ
  responseStatus : Option ℕ
  message : Option String
deriving DecidableEq, Repr

/-- Message checks on a truthy (non-empty) message string. -/
def msgCheck (m : Option String) (p : List Char → Bool) : Bool :=
  match m with
  | some t => if t.data.isEmpty then false else p t.data
  | none => false

/-- Retry decision from the source: retriable when the status (direct,
response, or mentioned in the message) is in `retryStatusCodes`, the
message contains `failed to fetch`, or it contains (case-insensitively)
`service unavailable`, `resource exhausted` or `deadline exceeded`. -/
def shouldRetryError (e : JsError) (codes : List ℕ) : Bool :=
  (match e.status with | some c => codes.contains c | none => false) ||
  (match e.responseStatus with | some c => codes.contains c | none => false) ||
  msgCheck e.message (fun m => codes.any (fun c => containsSeq (toString c).data m)) ||
  msgCheck e.message (fun m => containsSeq "failed to fetch".data m) ||
  msgCheck e.message (fun m =>
    containsSeq "service unavailable".data (m.map lowerChar) ||
    containsSeq "resource exhausted".data (m.map lowerChar) ||
    containsSeq "deadline exceeded".data (m.map lowerChar))

/-- Options of `retryWithAdvancedBackoff`. -/
structure RetryOpts where
  maxRetries : ℕ
  initialDelay : ℕ
  maxDelay : ℕ
  retryStatusCodes : List ℕ
deriving DecidableEq, Repr

/-- Exponential part of the backoff delay:
`min(maxDelay, initialDelay * 2^attempt)`. -/
def expDelay (o : RetryOpts) (attempt : ℕ) : ℕ :=
  min o.maxDelay (o.initialDelay * 2 ^ attempt)

/-- Jittered delay: `exponentialDelay * (0.8 + random * 0.4)`. -/
def jitterDelay (o : RetryOpts) (r : ℕ → ℚ) (attempt : ℕ) : ℚ :=
  (expDelay o attempt : ℚ) * (4 / 5 + r attempt * (2 / 5))

/-- Observable outcome of a retry run: final result (the error payload is
`none` when the loop never ran), number of invocations, and the sequence
of sleeps performed. -/
structure RetryOutcome (Res : Type) where
  result : Except (Option JsError) Res
  calls : ℕ
  delays : List ℚ
deriving Repr

/-- Loop body of `retryWithAdvancedBackoff`: `attempt` is the current
attempt index, the second argument the remaining iterations, the third
the last stored error. -/
def retryAux (Res : Type) (fn : ℕ → Except JsError Res) (o : RetryOpts) (r : ℕ → ℚ) :
    ℕ → ℕ → Option JsError → RetryOutcome Res
  | _, 0, last => ⟨.error last, 0, []⟩
  | attempt, rem + 1, _ =>
    match fn attempt with
    | .ok v => ⟨.ok v, 1, []⟩
    | .error e =>
      if shouldRetryError e o.retryStatusCodes then
        let rest := retryAux Res fn o r (attempt + 1) rem (some e)
        ⟨rest.result, rest.calls + 1, jitterDelay o r attempt :: rest.delays⟩
      else ⟨.error (some e), 1, []⟩

/-- Shallow embedding of `retryWithAdvancedBackoff`. -/
def retryRun (Res : Type) (fn : ℕ → Except JsError Res) (o : RetryOpts) (r : ℕ → ℚ) :
    RetryOutcome Res :=
  retryAux Res fn o r 0 o.maxRetries none

theorem retryAux_ok (Res : Type) (fn : ℕ → Except JsError Res) (o : RetryOpts)
    (r : ℕ → ℚ) (a rem : ℕ) (last : Option JsError) (v : Res)
    (hf : fn a = .ok v) :
    retryAux Res fn o r a (rem + 1) last = ⟨.ok v, 1, []⟩ := by
  simp only [retryAux, hf]

theorem retryAux_nonretriable (Res : Type) (fn : ℕ → Except JsError Res) (o : RetryOpts)
    (r : ℕ → ℚ) (a rem : ℕ) (last : Option JsError) (e : JsError)
    (hf : fn a = .error e) (hnr : shouldRetryError e o.retryStatusCodes = false) :
    retryAux Res fn o r a (rem + 1) last = ⟨.error (some e), 1, []⟩ := by
  simp only [retryAux, hf, hnr]
  rfl

theorem retryAux_retriable (Res : Type) (fn : ℕ → Except JsError Res) (o : RetryOpts)
    (r : ℕ → ℚ) (a rem : ℕ) (last : Option JsError) (e : JsError)
    (hf : fn a = .error e) (hr : shouldRetryError e o.retryStatusCodes = true) :
    retryAux Res fn o r a (rem + 1) last =
      ⟨(retryAux Res fn o r (a + 1) rem (some e)).result,
       (retryAux Res fn o r (a + 1) rem (some e)).calls + 1,
       jitterDelay o r a :: (retryAux Res fn o r (a + 1) rem (some e)).delays⟩ := by
  simp only [retryAux, hf, hr]
  rfl

theorem retryAux_allRetriable (Res : Type) (fn : ℕ → Except JsError Res) (o : RetryOpts)
    (r : ℕ → ℚ) :
    ∀ (rem a : ℕ) (last : Option JsError),
      (∀ j, j < rem → ∃ e, fn (a + j) = .error e ∧
        shouldRetryError e o.retryStatusCodes = true) →
      (retryAux Res fn o r a rem last).calls = rem ∧
      (rem = 0 → (retryAux Res fn o r a rem last).result = .error last) ∧
      (∀ e, 0 < rem → fn (a + rem - 1) = .error e →
        (retryAux Res fn o r a rem last).result = .error (some e)) := by
  intro rem
  induction rem with
  | zero =>
    intro a last _
    exact ⟨rfl, fun _ => rfl, fun e h => absurd h (by omega)⟩
  | succ n ih =>
    intro a last hall
    obtain ⟨e0, he0, hr0⟩ := hall 0 (by omega)
    simp only [Nat.add_zero] at he0
    have hall' : ∀ j, j < n → ∃ e, fn (a + 1 + j) = .error e ∧
        shouldRetryError e o.retryStatusCodes = true := by
      intro j hj
      obtain ⟨e, he, hr⟩ := hall (j + 1) (by omega)
      exact ⟨e, by rw [show a + 1 + j = a + (j + 1) by omega]; exact he, hr⟩
    have ihn := ih (a + 1) (some e0) hall'
    rw [retryAux_retriable Res fn o r a n last e0 he0 hr0]
    refine ⟨by simp [ihn.1], fun h => absurd h (by omega), ?_⟩
    intro e _ hfe
    cases n with
    | zero =>
      have : fn a = .error e := by simpa using hfe
      rw [he0] at this
      have he : e0 = e := by injection this
      subst he
      simpa using ihn.2.1 rfl
    | succ m =>
      have hfe' : fn (a + 1 + (m + 1) - 1) = .error e := by
        rw [show a + 1 + (m + 1) - 1 = a + (m + 1 + 1) - 1 by omega]
        exact hfe
      simpa using ihn.2.2 e (by omega) hfe'

theorem retryAux_success (Res : Type) (fn : ℕ → Except JsError Res) (o : RetryOpts)
    (r : ℕ → ℚ) :
    ∀ (k a rem : ℕ) (last : Option JsError) (v : Res),
      fn (a + k) = .ok v →
      (∀ j, j < k → ∃ e, fn (a + j) = .error e ∧
        shouldRetryError e o.retryStatusCodes = true) →
      k < rem →
      (retryAux Res fn o r a rem last).result = .ok v ∧
      (retryAux Res fn o r a rem last).calls = k + 1 := by
  intro k
  induction k with
  | zero =>
    intro a rem last v hok _ hlt
    obtain ⟨rem', rfl⟩ : ∃ rem', rem = rem' + 1 := ⟨rem - 1, by omega⟩
    have hok' : fn a = .ok v := by simpa using hok
    rw [retryAux_ok Res fn o r a rem' last v hok']
    exact ⟨rfl, rfl⟩
  | succ m ih =>
    intro a rem last v hok hfail hlt
    obtain ⟨rem', rfl⟩ : ∃ rem', rem = rem' + 1 := ⟨rem - 1, by omega⟩
    obtain ⟨e0, he0, hr0⟩ := hfail 0 (by omega)
    simp only [Nat.add_zero] at he0
    have hok' : fn (a + 1 + m) = .ok v := by
      rw [show a + 1 + m = a + (m + 1) by omega]
      exact hok
    have hfail' : ∀ j, j < m → ∃ e, fn (a + 1 + j) = .error e ∧
        shouldRetryError e o.retryStatusCodes = true := by
      intro j hj
      obtain ⟨e, he, hr⟩ := hfail (j + 1) (by omega)
      exact ⟨e, by rw [show a + 1 + j = a + (j + 1) by omega]; exact he, hr⟩
    have ihm := ih (a + 1) rem' (some e0) v hok' hfail' (by omega)
    rw [retryAux_retriable Res fn o r a rem' last e0 he0 hr0]
    exact ⟨ihm.1, by simp [ihm.2]⟩

theorem retryAux_delays (Res : Type) (fn : ℕ → Except JsError Res) (o : RetryOpts)
    (r : ℕ → ℚ) :
    ∀ (rem a : ℕ) (last : Option JsError) (i : ℕ) (d : ℚ),
      (retryAux Res fn o r a rem last).delays.get? i = some d →
      d = jitterDelay o r (a + i) := by
  intro rem
  induction rem with
  | zero =>
    intro a last i d h
    cases h
  | succ n ih =>
    intro a last i d h
    rcases hcase : fn a with e | v
    case ok =>
      rw [retryAux_ok Res fn o r a n last v hcase] at h
      cases h
    case error =>
      rcases hretr : shouldRetryError e o.retryStatusCodes with _ | _
      · rw [retryAux_nonretriable Res fn o r a n last e hcase hretr] at h
        cases h
      · rw [retryAux_retriable Res fn o r a n last e hcase hretr] at h
        simp only at h
        cases i with
        | zero =>
          have hd : jitterDelay o r a = d := by
            simpa using h
          simpa using hd.symm
        | succ i' =>
          have h' : (retryAux Res fn o r (a + 1) n (some e)).delays.get? i' = some d := by
            simpa using h
          have hih := ih (a + 1) (some e) i' d h'
          rw [hih]
          congr 1
          omega


/-- C2: behaviour of `retryWithAdvancedBackoff`.  A first attempt ending
in a non-retriable error is propagated after exactly one invocation; an
operation that always fails retriably is invoked exactly `maxRetries`
times (hence at most `maxRetries`) and the last error is thrown; if the
(0-based) attempt `k < maxRetries` succeeds after retriable failures, its
result is returned after exactly `k + 1` invocations; and every
inter-attempt delay equals `min(maxDelay, initialDelay * 2^attempt)`
scaled by the jitter factor `0.8 + 0.4 * random`, hence lies in
`[0.8, 1.2]` times the exponential delay. -/
theorem retryWithAdvancedBackoff_spec (Res : Type) (fn : ℕ → Except JsError Res)
    (o : RetryOpts) (r : ℕ → ℚ)
    (hr : ∀ n, 0 ≤ r n ∧ r n < 1) (hm : 1 ≤ o.maxRetries) :
    (∀ e, fn 0 = .error e → shouldRetryError e o.retryStatusCodes = false →
      (retryRun Res fn o r).result = .error (some e) ∧
      (retryRun Res fn o r).calls = 1) ∧
    ((∀ j, j < o.maxRetries → ∃ e, fn j = .error e ∧
        shouldRetryError e o.retryStatusCodes = true) →
      (retryRun Res fn o r).calls = o.maxRetries ∧
      ∀ e, fn (o.maxRetries - 1) = .error e →
        (retryRun Res fn o r).result = .error (some e)) ∧
    (∀ (k : ℕ) (v : Res), k < o.maxRetries → fn k = .ok v →
      (∀ j, j < k → ∃ e, fn j = .error e ∧
        shouldRetryError e o.retryStatusCodes = true) →
      (retryRun Res fn o r).result = .ok v ∧
      (retryRun Res fn o r).calls = k + 1) ∧
    (∀ (i : ℕ) (d : ℚ), (retryRun Res fn o r).delays.get? i = some d →
      d = (expDelay o i : ℚ) * (4 / 5 + r i * (2 / 5)) ∧
      (4 / 5 : ℚ) * (expDelay o i : ℚ) ≤ d ∧
      d ≤ (6 / 5 : ℚ) * (expDelay o i : ℚ)) := by
  refine ⟨?_, ?_, ?_, ?_⟩
  · intro e hf hnr
    obtain ⟨rem, hrem⟩ : ∃ rem, o.maxRetries = rem + 1 := ⟨o.maxRetries - 1, by omega⟩
    unfold retryRun
    rw [hrem, retryAux_nonretriable Res fn o r 0 rem none e hf hnr]
    exact ⟨rfl, rfl⟩
  · intro hall
    have h := retryAux_allRetriable Res fn o r o.maxRetries 0 none
      (by intro j hj; simpa using hall j hj)
    refine ⟨h.1, ?_⟩
    intro e hfe
    exact h.2.2 e (by omega) (by simpa using hfe)
  · intro k v hk hok hfail
    exact retryAux_success Res fn o r k 0 o.maxRetries none v (by simpa using hok)
      (by intro j hj; simpa using hfail j hj) hk
  · intro i d hd
    have hjit := retryAux_delays Res fn o r o.maxRetries 0 none i d hd
    simp only [Nat.zero_add, jitterDelay] at hjit
    have hE : (0 : ℚ) ≤ (expDelay o i : ℚ) := by positivity
    have hr0 := (hr i).1
    have hr1 := (hr i).2
    refine ⟨hjit, ?_, ?_⟩
    · rw [hjit]
      nlinarith
    · rw [hjit]
      nlinarith

/-- Witness for C2: an operation that always fails with plain HTTP 400
(non-retriable) is invoked exactly once and the error propagates. -/
theorem retryWithAdvancedBackoff_spec_witness :
    (retryRun ℕ (fun _ => .error ⟨some 400, none, none⟩)
        ⟨5, 1000, 10000, [429, 500, 502, 503, 504]⟩ (fun _ => 0)).result =
      .error (some ⟨some 400, none, none⟩) ∧
    (retryRun ℕ (fun _ => .error ⟨some 400, none, none⟩)
        ⟨5, 1000, 10000, [429, 500, 502, 503, 504]⟩ (fun _ => 0)).calls = 1 := by
  exact (retryWithAdvancedBackoff_spec ℕ (fun _ => .error ⟨some 400, none, none⟩)
      ⟨5, 1000, 10000, [429, 500, 502, 503, 504]⟩ (fun _ => 0)
      (fun n => ⟨le_refl 0, by norm_num⟩) (by norm_num)).1
    ⟨some 400, none, none⟩ rfl (by decide)


/-! ### Adaptive batch embedding (processDocumentChunksInBatches)
Chunks are identified by their index in `enhancedDocs`.  The per-chunk
embedding is computed through `retryWithAdvancedBackoff` with
`maxRetries 5, initialDelay 1000, maxDelay 12000`, falling back to the
1536 zero vector when retries are exhausted (the `.catch` in the source).
Whether a whole batch throws is abstracted by the oracle
`oracle : batch number → Bool` (`true` = batch succeeded). -/

/-- Zero embedding vector (`new Array(1536).fill(0)`). -/
def zeroVec : List ℚ := List.replicate 1536 0

/-- Retry options used for each chunk embedding in
`processDocumentChunksInBatches`. -/
def chunkRetryOpts : RetryOpts := ⟨5, 1000, 12000, [429, 500, 502, 503, 504]⟩

/-- Embedding obtained for chunk `i`: the retry wrapper's result, or the
zero-vector fallback when it failed. -/
def docEmbedOutcome (provider : ℕ → ℕ → Except JsError (List ℚ)) (r : ℕ → ℕ → ℚ)
    (i : ℕ) : List ℚ :=
  match (retryRun (List ℚ) (provider i) chunkRetryOpts (r i)).result with
  | .ok v => v
  | .error _ => zeroVec

/-- Batch configuration (`initialBatchSize`, `minBatchSize`). -/
structure BatchConfig where
  initialBatchSize : ℕ
  minBatchSize : ℕ
deriving DecidableEq, Repr

/-- Mutable state of the batching while-loop. -/
structure BatchState where
  queue : List ℕ
  results : List (ℕ × List ℚ)
  batchSize : ℕ
  consecFail : ℕ
  consecSucc : ℕ
deriving DecidableEq, Repr

/-- Lookup in the results association list (the `results` `Map`). -/
def findRes (i : ℕ) : List (ℕ × List ℚ) → Option (List ℚ)
  | [] => none
  | (j, v) :: rest => if j = i then some v else findRes i rest

/-- One iteration of the while-loop: batch-size adjustment, then either a
successful batch (results recorded, queue shrinks) or a failed batch
(chunks pushed back onto the queue). -/
def stepBatch (cfg : BatchConfig) (oracle : ℕ → Bool) (emb : ℕ → List ℚ)
    (bidx : ℕ) (s : BatchState) : BatchState :=
  let bs :=
    if 0 < s.consecFail then max cfg.minBatchSize (s.batchSize / 2)
    else if 3 ≤ s.consecSucc then min cfg.initialBatchSize (s.batchSize + 1)
    else s.batchSize
  let cf := if 0 < s.consecFail then 0 else s.consecFail
  let cs := if 0 < s.consecFail then s.consecSucc
    else if 3 ≤ s.consecSucc then 0 else s.consecSucc
  let takeN := min bs s.queue.length
  let batch := s.queue.take takeN
  let rest := s.queue.drop takeN
  if oracle bidx then
    { queue := rest,
      results := s.results ++ batch.map (fun i => (i, emb i)),
      batchSize := bs, consecFail := 0, consecSucc := cs + 1 }
  else
    { queue := rest ++ batch, results := s.results,
      batchSize := if 3 ≤ cf + 1 then cfg.minBatchSize else bs,
      consecFail := cf + 1, consecSucc := cs }

/-- Fuelled while-loop of `processDocumentChunksInBatches`. -/
def processLoop (cfg : BatchConfig) (oracle : ℕ → Bool) (emb : ℕ → List ℚ) :
    ℕ → ℕ → BatchState → Option (List (ℕ × List ℚ))
  | 0, _, s => if s.queue.isEmpty then some s.results else none
  | fuel + 1, bidx, s =>
    if s.queue.isEmpty then some s.results
    else processLoop cfg oracle emb fuel (bidx + 1) (stepBatch cfg oracle emb bidx s)

/-- Shallow embedding of `processDocumentChunksInBatches`: given `n`
chunks, run the adaptive loop and assemble
`enhancedDocs.map((_, i) => results.get(i) || zeroVec)`; `none` when the
fuel is exhausted before the queue drains. -/
def processDocumentChunksInBatches (n fuel : ℕ) (cfg : BatchConfig)
    (oracle : ℕ → Bool) (provider : ℕ → ℕ → Except JsError (List ℚ))
    (r : ℕ → ℕ → ℚ) : Option (List (List ℚ)) :=
  match processLoop cfg oracle (docEmbedOutcome provider r) fuel 0
      ⟨List.range n, [], cfg.initialBatchSize, 0, 0⟩ with
  | some rs => some ((List.range n).map (fun i => (findRes i rs).getD zeroVec))
  | none => none

theorem findRes_append (i : ℕ) (a b : List (ℕ × List ℚ)) :
    findRes i (a ++ b) = match findRes i a with
      | some v => some v
      | none => findRes i b := by
  induction a with
  | nil => simp [findRes]
  | cons p rest ih =>
    rcases p with ⟨j, v⟩
    by_cases h : j = i
    · simp [findRes, h]
    · simp [findRes, h, ih]

theorem findRes_map_self (i : ℕ) (l : List ℕ) (emb : ℕ → List ℚ) :
    findRes i (l.map (fun j => (j, emb j))) =
      if i ∈ l then some (emb i) else none := by
  induction l with
  | nil => simp [findRes]
  | cons j rest ih =>
    by_cases h : j = i
    · simp [findRes, h]
    · have h' : ¬ i = j := fun he => h he.symm
      simp [findRes, h, ih, h']

/-- Invariant of the batching loop: every chunk index below `n` is still
queued or already carries its deterministic embedding, and every recorded
result is that embedding. -/
def BatchInv (n : ℕ) (emb : ℕ → List ℚ) (s : BatchState) : Prop :=
  (∀ i, i < n → i ∈ s.queue ∨ (findRes i s.results).isSome) ∧
  (∀ i v, findRes i s.results = some v → v = emb i)

theorem stepBatch_characterization (cfg : BatchConfig) (oracle : ℕ → Bool)
    (emb : ℕ → List ℚ) (bidx : ℕ) (s : BatchState) :
    ∃ k : ℕ,
      (oracle bidx = true →
        (stepBatch cfg oracle emb bidx s).queue = s.queue.drop k ∧
        (stepBatch cfg oracle emb bidx s).results =
          s.results ++ (s.queue.take k).map (fun i => (i, emb i))) ∧
      (oracle bidx = false →
        (stepBatch cfg oracle emb bidx s).queue = s.queue.drop k ++ s.queue.take k ∧
        (stepBatch cfg oracle emb bidx s).results = s.results) := by
  refine ⟨min (if 0 < s.consecFail then max cfg.minBatchSize (s.batchSize / 2)
    else if 3 ≤ s.consecSucc then min cfg.initialBatchSize (s.batchSize + 1)
    else s.batchSize) s.queue.length, ?_, ?_⟩
  · intro h
    unfold stepBatch
    rw [if_pos h]
    exact ⟨rfl, rfl⟩
  · intro h
    unfold stepBatch
    rw [if_neg (by simp [h])]
    exact ⟨rfl, rfl⟩

theorem stepBatch_preserves (cfg : BatchConfig) (oracle : ℕ → Bool)
    (emb : ℕ → List ℚ) (bidx n : ℕ) (s : BatchState) (hinv : BatchInv n emb s) :
    BatchInv n emb (stepBatch cfg oracle emb bidx s) := by
  obtain ⟨h1, h2⟩ := hinv
  obtain ⟨k, hsucc, hfail⟩ := stepBatch_characterization cfg oracle emb bidx s
  rcases horacle : oracle bidx with _ | _
  · obtain ⟨hq, hres⟩ := hfail horacle
    constructor
    · intro i hi
      rcases h1 i hi with hmem | hr
      · left
        rw [hq]
        have hsplit : i ∈ s.queue.take k ++ s.queue.drop k := by
          rw [List.take_append_drop]
          exact hmem
        rcases List.mem_append.mp hsplit with h | h
        · exact List.mem_append.mpr (Or.inr h)
        · exact List.mem_append.mpr (Or.inl h)
      · right
        rw [hres]
        exact hr
    · intro i v hv
      rw [hres] at hv
      exact h2 i v hv
  · obtain ⟨hq, hres⟩ := hsucc horacle
    constructor
    · intro i hi
      rcases h1 i hi with hmem | hr
      · have hsplit : i ∈ s.queue.take k ++ s.queue.drop k := by
          rw [List.take_append_drop]
          exact hmem
        rcases List.mem_append.mp hsplit with h | h
        · right
          rw [hres, findRes_append]
          rcases hfold : findRes i s.results with _ | v
          · rw [findRes_map_self]
            simp [h]
          · simp
        · left
          rw [hq]
          exact h
      · right
        rw [hres, findRes_append]
        rcases hfold : findRes i s.results with _ | v
        · rw [hfold] at hr
          simp at hr
        · simp
    · intro i v hv
      rw [hres, findRes_append] at hv
      rcases hfold : findRes i s.results with _ | w
      · rw [hfold] at hv
        rw [findRes_map_self] at hv
        by_cases hmem : i ∈ s.queue.take k
        · rw [if_pos hmem] at hv
          injection hv with hv
          exact hv.symm
        · rw [if_neg hmem] at hv
          cases hv
      · rw [hfold] at hv
        injection hv with hv
        subst hv
        exact h2 i w hfold

theorem processLoop_complete (cfg : BatchConfig) (oracle : ℕ → Bool)
    (emb : ℕ → List ℚ) (n : ℕ) :
    ∀ (fuel bidx : ℕ) (s : BatchState) (rs : List (ℕ × List ℚ)),
      BatchInv n emb s →
      processLoop cfg oracle emb fuel bidx s = some rs →
      ∀ i, i < n → findRes i rs = some (emb i) := by
  intro fuel
  induction fuel with
  | zero =>
    intro bidx s rs hinv hrun i hi
    simp only [processLoop] at hrun
    by_cases hq : s.queue.isEmpty
    · rw [if_pos hq] at hrun
      injection hrun with hrun
      subst hrun
      rcases hinv.1 i hi with hmem | hsome
      · rw [List.isEmpty_iff.mp hq] at hmem
        cases hmem
      · rcases hfind : findRes i s.results with _ | v
        · rw [hfind] at hsome
          cases hsome
        · rw [hinv.2 i v hfind]
    · rw [if_neg hq] at hrun
      cases hrun
  | succ f ih =>
    intro bidx s rs hinv hrun i hi
    simp only [processLoop] at hrun
    by_cases hq : s.queue.isEmpty
    · rw [if_pos hq] at hrun
      injection hrun with hrun
      subst hrun
      rcases hinv.1 i hi with hmem | hsome
      · rw [List.isEmpty_iff.mp hq] at hmem
        cases hmem
      · rcases hfind : findRes i s.results with _ | v
        · rw [hfind] at hsome
          cases hsome
        · rw [hinv.2 i v hfind]
    · rw [if_neg hq] at hrun
      exact ih (bidx + 1) (stepBatch cfg oracle emb bidx s) rs
        (stepBatch_preserves cfg oracle emb bidx n s hinv) hrun i hi

/-- C3: batch embedding never leaves a position unfilled.  Whenever the
adaptive loop terminates, `processDocumentChunksInBatches` returns
exactly `n` vectors in the input order, position `i` holding the
provider's embedding for chunk `i` when its retry wrapper succeeded and
the all-zero 1536-vector when that chunk exhausted its retries; and a
failed batch is pushed back onto the queue with no chunk dropped and no
result recorded. -/
theorem processDocumentChunksInBatches_spec (n fuel : ℕ) (cfg : BatchConfig)
    (oracle : ℕ → Bool) (provider : ℕ → ℕ → Except JsError (List ℚ))
    (r : ℕ → ℕ → ℚ) (out : List (List ℚ))
    (hrun : processDocumentChunksInBatches n fuel cfg oracle provider r = some out) :
    out.length = n ∧
    (∀ i, i < n → out.get? i = some (docEmbedOutcome provider r i)) ∧
    (∀ i, i < n →
      (∃ v, (retryRun (List ℚ) (provider i) chunkRetryOpts (r i)).result = .ok v ∧
        out.get? i = some v) ∨
      ((∃ e, (retryRun (List ℚ) (provider i) chunkRetryOpts (r i)).result = .error e) ∧
        out.get? i = some (List.replicate 1536 0))) ∧
    (∀ (s : BatchState) (bidx : ℕ), oracle bidx = false →
      (∀ j, j ∈ (stepBatch cfg oracle (docEmbedOutcome provider r) bidx s).queue ↔
        j ∈ s.queue) ∧
      (stepBatch cfg oracle (docEmbedOutcome provider r) bidx s).results = s.results) := by
  obtain ⟨rs, hloop, hout⟩ : ∃ rs,
      processLoop cfg oracle (docEmbedOutcome provider r) fuel 0
        ⟨List.range n, [], cfg.initialBatchSize, 0, 0⟩ = some rs ∧
      out = (List.range n).map (fun i => (findRes i rs).getD zeroVec) := by
    unfold processDocumentChunksInBatches at hrun
    rcases hcase : processLoop cfg oracle (docEmbedOutcome provider r) fuel 0
        ⟨List.range n, [], cfg.initialBatchSize, 0, 0⟩ with _ | rs
    · rw [hcase] at hrun
      cases hrun
    · rw [hcase] at hrun
      injection hrun with hrun
      exact ⟨rs, rfl, hrun.symm⟩
  have hinv0 : BatchInv n (docEmbedOutcome provider r)
      ⟨List.range n, [], cfg.initialBatchSize, 0, 0⟩ := by
    constructor
    · intro i hi
      exact Or.inl (List.mem_range.mpr hi)
    · intro i v hv
      cases hv
  have hall := processLoop_complete cfg oracle (docEmbedOutcome provider r) n
    fuel 0 _ rs hinv0 hloop
  have hget : ∀ i, i < n → out.get? i = some (docEmbedOutcome provider r i) := by
    intro i hi
    rw [hout, List.get?_map, List.get?_range hi]
    simp [hall i hi]
  refine ⟨by rw [hout]; simp, hget, ?_, ?_⟩
  · intro i hi
    rcases hres : (retryRun (List ℚ) (provider i) chunkRetryOpts (r i)).result with e | v
    · right
      refine ⟨⟨e, rfl⟩, ?_⟩
      have := hget i hi
      rw [this]
      unfold docEmbedOutcome
      rw [hres]
      rfl
    · left
      refine ⟨v, rfl, ?_⟩
      have := hget i hi
      rw [this]
      unfold docEmbedOutcome
      rw [hres]
  · intro s bidx hfail
    obtain ⟨k, _, hfailc⟩ := stepBatch_characterization cfg oracle
      (docEmbedOutcome provider r) bidx s
    obtain ⟨hq, hres⟩ := hfailc hfail
    refine ⟨?_, hres⟩
    intro j
    rw [hq]
    constructor
    · intro hj
      rcases List.mem_append.mp hj with h | h
      · exact List.mem_of_mem_drop h
      · exact List.mem_of_mem_take h
    · intro hj
      have hsplit : j ∈ s.queue.take k ++ s.queue.drop k := by
        rw [List.take_append_drop]
        exact hj
      rcases List.mem_append.mp hsplit with h | h
      · exact List.mem_append.mpr (Or.inr h)
      · exact List.mem_append.mpr (Or.inl h)

/-- Witness for C3: with one chunk, a batch oracle that always succeeds
and a provider that always fails retriably (HTTP 503), the output is the
single zero vector; the theorem is applied at this concrete run. -/
theorem processDocumentChunksInBatches_spec_witness :
    ∃ out, processDocumentChunksInBatches 1 2 ⟨10, 2⟩ (fun _ => true)
        (fun _ _ => .error ⟨some 503, none, none⟩) (fun _ _ => 0) = some out ∧
      out.length = 1 ∧ out.get? 0 = some (List.replicate 1536 0) := by
  have hrun : processDocumentChunksInBatches 1 2 ⟨10, 2⟩ (fun _ => true)
      (fun _ _ => .error ⟨some 503, none, none⟩) (fun _ _ => 0) =
      some [(findRes 0 [(0, docEmbedOutcome (fun _ _ => .error ⟨some 503, none, none⟩)
        (fun _ _ => 0) 0)]).getD zeroVec] := by
    rfl
  have h := processDocumentChunksInBatches_spec 1 2 ⟨10, 2⟩ (fun _ => true)
    (fun _ _ => .error ⟨some 503, none, none⟩) (fun _ _ => 0) _ hrun
  refine ⟨_, hrun, h.1, ?_⟩
  rcases h.2.2.1 0 (by omega) with ⟨v, hok, _⟩ | ⟨_, hzero⟩
  · have hres : (retryRun (List ℚ) ((fun _ _ => .error ⟨some 503, none, none⟩) 0)
        chunkRetryOpts ((fun _ _ => (0 : ℚ)) 0)).result =
        .error (some ⟨some 503, none, none⟩) := by
      have hall := retryAux_allRetriable (List ℚ)
        ((fun _ _ => .error ⟨some 503, none, none⟩) 0) chunkRetryOpts
        ((fun _ _ => (0 : ℚ)) 0) 5 0 none
        (by intro j hj; exact ⟨⟨some 503, none, none⟩, rfl, by decide⟩)
      exact hall.2.2 ⟨some 503, none, none⟩ (by omega) rfl
    rw [hres] at hok
    cases hok
  · exact hzero


/-! ### In-memory retrieval and the RAG query prefix
`getRelevantDocsFromMemory` iterates query variants against the
in-memory store through a retriever with `k = 7`; the store's raw
similarity ranking is abstracted as `sim : String → List Doc` and the
retriever's cut as `take 7`.  The MMR fallback is abstracted as
`mmr : String → List Doc`.  `queryWithRAG`'s pure prefix up to the LLM
call is `queryWithRAGRetrieve`; its `ok` payload is the ranked chunk list
handed to context assembly and the LLM, so an `error` value means no LLM
call is attempted. -/

/-- Variant loop of `getRelevantDocsFromMemory`: accumulate the top-7
results of each variant in order, skipping empty result sets, and stop as
soon as the raw accumulated count (duplicates included) reaches 5. -/
def memLoop (sim : String → List Doc) : List String → List Doc → List Doc
  | [], acc => acc
  | v :: vs, acc =>
    if ((sim v).take 7).isEmpty then memLoop sim vs acc
    else if 5 ≤ (acc ++ (sim v).take 7).length then acc ++ (sim v).take 7
    else memLoop sim vs (acc ++ (sim v).take 7)

/-- Shallow embedding of `getRelevantDocsFromMemory`: empty store gives
`[]`; otherwise run the variant loop, fall back to MMR on the first
variant when it found nothing, and deduplicate. -/
def getRelevantDocsFromMemory (storeInit : Bool) (sim : String → List Doc)
    (mmr : String → List Doc) (variants : List String) : List Doc :=
  if !storeInit then []
  else
    deduplicateDocuments
      (if (memLoop sim variants []).isEmpty then
        (if (mmr (variants.headD "")).isEmpty then memLoop sim variants []
         else memLoop sim variants [] ++ mmr (variants.headD ""))
       else memLoop sim variants [])

/-- Modelled from the spec sentence of claim C5 only, for comparison: the
variant loop that stops once the accumulated *unique* results reach 5. -/
def memLoopSpec (sim : String → List Doc) : List String → List Doc → List Doc
  | [], acc => acc
  | v :: vs, acc =>
    if ((sim v).take 7).isEmpty then memLoopSpec sim vs acc
    else if 5 ≤ (deduplicateDocuments (acc ++ (sim v).take 7)).length then
      acc ++ (sim v).take 7
    else memLoopSpec sim vs (acc ++ (sim v).take 7)

/-- Spec-claimed variant of `getRelevantDocsFromMemory` built on the
unique-count threshold. -/
def getRelevantDocsFromMemorySpec (storeInit : Bool) (sim : String → List Doc)
    (mmr : String → List Doc) (variants : List String) : List Doc :=
  if !storeInit then []
  else
    deduplicateDocuments
      (if (memLoopSpec sim variants []).isEmpty then
        (if (mmr (variants.headD "")).isEmpty then memLoopSpec sim variants []
         else memLoopSpec sim variants [] ++ mmr (variants.headD ""))
       else memLoopSpec sim variants [])

/-- Failure conditions `queryWithRAG` can raise before reaching the LLM. -/
inductive RagFailure where
  | noDocumentsProcessed
  | noRelevantInformation
deriving DecidableEq, Repr

/-- Pure prefix of `queryWithRAG` up to the LLM call: check the vector
store, retrieve from memory, supplement from the database tier (with the
raw query) only when fewer than 3 results, deduplicate the merged list,
and fail when nothing relevant remains. -/
def queryWithRAGRetrieve (storeInit : Bool) (sim : String → List Doc)
    (mmr : String → List Doc) (variants : List String)
    (dbFetch : String → Except Unit (List Doc)) (query : String) :
    Except RagFailure (List Doc) :=
  if !storeInit then .error .noDocumentsProcessed
  else
    let mem := getRelevantDocsFromMemory storeInit sim mmr variants
    let docs := if mem.length < 3 then
        match dbFetch query with
        | .ok db => deduplicateDocuments (mem ++ db)
        | .error _ => mem
      else mem
    if docs.isEmpty then .error .noRelevantInformation else .ok docs

theorem memLoop_mem (sim : String → List Doc) :
    ∀ (vs : List String) (acc : List Doc) (d : Doc), d ∈ memLoop sim vs acc →
      d ∈ acc ∨ ∃ v ∈ vs, d ∈ (sim v).take 7 := by
  intro vs
  induction vs with
  | nil =>
    intro acc d hd
    exact Or.inl hd
  | cons v rest ih =>
    intro acc d hd
    simp only [memLoop] at hd
    by_cases h1 : ((sim v).take 7).isEmpty
    · rw [if_pos h1] at hd
      rcases ih acc d hd with h | ⟨w, hw, hdw⟩
      · exact Or.inl h
      · exact Or.inr ⟨w, by simp [hw], hdw⟩
    · rw [if_neg h1] at hd
      by_cases h2 : 5 ≤ (acc ++ (sim v).take 7).length
      · rw [if_pos h2] at hd
        rcases List.mem_append.mp hd with h | h
        · exact Or.inl h
        · exact Or.inr ⟨v, by simp, h⟩
      · rw [if_neg h2] at hd
        rcases ih (acc ++ (sim v).take 7) d hd with h | ⟨w, hw, hdw⟩
        · rcases List.mem_append.mp h with h | h
          · exact Or.inl h
          · exact Or.inr ⟨v, by simp, h⟩
        · exact Or.inr ⟨w, by simp [hw], hdw⟩

/-- Concrete store for the C5 counterexample: variants `v1` and `v2`
each return the same three documents, `v3` returns a fresh one. -/
def simCounter : String → List Doc := fun v =>
  if v = "v1" ∨ v = "v2" then
    [{ pageContent := ['a'] }, { pageContent := ['b'] }, { pageContent := ['c'] }]
  else if v = "v3" then [{ pageContent := ['d'] }]
  else []

/-- MMR oracle returning nothing, for the counterexample. -/
def mmrEmpty : String → List Doc := fun _ => []

/-- C5 counterexample: the loop breaks on the raw accumulated count, not
the unique count.  With variants `v1, v2, v3`, the duplicated results of
`v2` push the raw count to 6 ≥ 5 and the loop stops with only 3 unique
documents, never consulting `v3` — although `v3` holds a new document and
the unique count is still below 5.  The spec-claimed unique-threshold
variant returns that fourth document. -/
theorem getRelevantDocsFromMemory_counterexample :
    getRelevantDocsFromMemory true simCounter mmrEmpty ["v1", "v2", "v3"] =
      [{ pageContent := ['a'] }, { pageContent := ['b'] }, { pageContent := ['c'] }] ∧
    (getRelevantDocsFromMemory true simCounter mmrEmpty ["v1", "v2", "v3"]).length < 5 ∧
    ({ pageContent := ['d'] } : Doc) ∉
      getRelevantDocsFromMemory true simCounter mmrEmpty ["v1", "v2", "v3"] ∧
    ({ pageContent := ['d'] } : Doc) ∈ (simCounter "v3").take 7 ∧
    getRelevantDocsFromMemorySpec true simCounter mmrEmpty ["v1", "v2", "v3"] =
      [{ pageContent := ['a'] }, { pageContent := ['b'] }, { pageContent := ['c'] },
        { pageContent := ['d'] }] ∧
    getRelevantDocsFromMemory true simCounter mmrEmpty ["v1", "v2", "v3"] ≠
      getRelevantDocsFromMemorySpec true simCounter mmrEmpty ["v1", "v2", "v3"] := by
  refine ⟨by decide, by decide, by decide, by decide, by decide, by decide⟩

/-- C5 (amended): the retriever tries the query variants in order with
`k = 7` per variant and stops as soon as the raw accumulated result count
(duplicates included) reaches 5, deduplicating only after the loop — so
the remaining variants are irrelevant from that point on; every returned
document comes from some variant's top-7 (or from the MMR fallback on
the first variant when the loop found nothing); the persistent tier is
consulted only when the deduplicated in-memory count is below 3; that
supplement depends on the database only through the raw query; and the
merged list is deduplicated again. -/
theorem getRelevantDocsFromMemory_spec :
    (∀ (sim : String → List Doc) (v : String) (vs vs' : List String) (acc : List Doc),
      ((sim v).take 7).isEmpty = false →
      5 ≤ (acc ++ (sim v).take 7).length →
      memLoop sim (v :: vs) acc = memLoop sim (v :: vs') acc) ∧
    (∀ (sim mmr : String → List Doc) (variants : List String) (d : Doc),
      d ∈ getRelevantDocsFromMemory true sim mmr variants →
      (∃ v ∈ variants, d ∈ (sim v).take 7) ∨
      (memLoop sim variants [] = [] ∧ d ∈ mmr (variants.headD ""))) ∧
    (∀ (sim mmr : String → List Doc) (variants : List String),
      getRelevantDocsFromMemory false sim mmr variants = []) ∧
    (∀ (sim mmr : String → List Doc) (variants : List String)
        (db1 db2 : String → Except Unit (List Doc)) (query : String),
      3 ≤ (getRelevantDocsFromMemory true sim mmr variants).length →
      queryWithRAGRetrieve true sim mmr variants db1 query =
        queryWithRAGRetrieve true sim mmr variants db2 query) ∧
    (∀ (storeInit : Bool) (sim mmr : String → List Doc) (variants : List String)
        (db1 db2 : String → Except Unit (List Doc)) (query : String),
      db1 query = db2 query →
      queryWithRAGRetrieve storeInit sim mmr variants db1 query =
        queryWithRAGRetrieve storeInit sim mmr variants db2 query) ∧
    (∀ (sim mmr : String → List Doc) (variants : List String)
        (db : String → Except Unit (List Doc)) (query : String) (dbdocs : List Doc),
      (getRelevantDocsFromMemory true sim mmr variants).length < 3 →
      db query = .ok dbdocs →
      queryWithRAGRetrieve true sim mmr variants db query =
        (if (deduplicateDocuments
              (getRelevantDocsFromMemory true sim mmr variants ++ dbdocs)).isEmpty
         then .error .noRelevantInformation
         else .ok (deduplicateDocuments
              (getRelevantDocsFromMemory true sim mmr variants ++ dbdocs)))) := by
  refine ⟨?_, ?_, ?_, ?_, ?_, ?_⟩
  · intro sim v vs vs' acc hne hlen
    simp only [memLoop, hne, Bool.false_eq_true, if_false, if_pos hlen]
  · intro sim mmr variants d hd
    simp only [getRelevantDocsFromMemory, Bool.not_true, Bool.false_eq_true,
      if_false] at hd
    have hsub := (dedupGo_sublist _ []).subset hd
    by_cases hl : (memLoop sim variants []).isEmpty
    · rw [if_pos hl] at hsub
      by_cases hm : (mmr (variants.headD "")).isEmpty
      · rw [if_pos hm] at hsub
        rcases memLoop_mem sim variants [] d hsub with h | h
        · cases h
        · exact Or.inl h
      · rw [if_neg hm] at hsub
        rcases List.mem_append.mp hsub with h | h
        · rcases memLoop_mem sim variants [] d h with h' | h'
          · cases h'
          · exact Or.inl h'
        · exact Or.inr ⟨List.isEmpty_iff.mp hl, h⟩
    · rw [if_neg hl] at hsub
      rcases memLoop_mem sim variants [] d hsub with h | h
      · cases h
      · exact Or.inl h
  · intro sim mmr variants
    rfl
  · intro sim mmr variants db1 db2 query hlen
    simp only [queryWithRAGRetrieve, Bool.not_true, Bool.false_eq_true, if_false]
    have hno : ¬ (getRelevantDocsFromMemory true sim mmr variants).length < 3 := by
      omega
    simp only [if_neg hno]
  · intro storeInit sim mmr variants db1 db2 query hdb
    simp only [queryWithRAGRetrieve, hdb]
  · intro sim mmr variants db query dbdocs hlen hdb
    simp only [queryWithRAGRetrieve, Bool.not_true, Bool.false_eq_true, if_false,
      if_pos hlen, hdb]

/-- Witness for C5: a first variant that alone yields five (top-7)
results stops the loop at once — the tail of the variant list does not
change the outcome. -/
theorem getRelevantDocsFromMemory_spec_witness :
    memLoop
      (fun v => if v = "v1" then
        [{ pageContent := ['a'] }, { pageContent := ['b'] }, { pageContent := ['c'] },
          { pageContent := ['d'] }, { pageContent := ['e'] }] else [])
      ["v1", "v2"] [] =
    memLoop
      (fun v => if v = "v1" then
        [{ pageContent := ['a'] }, { pageContent := ['b'] }, { pageContent := ['c'] },
          { pageContent := ['d'] }, { pageContent := ['e'] }] else [])
      ["v1", "x"] [] := by
  exact getRelevantDocsFromMemory_spec.1
    (fun v => if v = "v1" then
      [{ pageContent := ['a'] }, { pageContent := ['b'] }, { pageContent := ['c'] },
        { pageContent := ['d'] }, { pageContent := ['e'] }] else [])
    "v1" ["v2"] ["x"] [] (by decide) (by decide)

/-- C4: fail-fast semantics of `queryWithRAG`.  With an uninitialized
vector store the distinct `no documents processed` failure is raised
before any LLM call (the `ok` payload is what reaches the LLM); when the
store is initialized but both retrieval tiers yield nothing the
`no relevant information` failure is raised, again without an LLM call;
and a successful retrieval never hands an empty chunk list onward. -/
theorem queryWithRAG_failfast :
    (∀ (sim mmr : String → List Doc) (variants : List String)
        (dbFetch : String → Except Unit (List Doc)) (query : String),
      queryWithRAGRetrieve false sim mmr variants dbFetch query =
        .error .noDocumentsProcessed) ∧
    (∀ (sim mmr : String → List Doc) (variants : List String)
        (dbFetch : String → Except Unit (List Doc)) (query : String),
      getRelevantDocsFromMemory true sim mmr variants = [] →
      (dbFetch query = .ok [] ∨ dbFetch query = .error ()) →
      queryWithRAGRetrieve true sim mmr variants dbFetch query =
        .error .noRelevantInformation) ∧
    (∀ (storeInit : Bool) (sim mmr : String → List Doc) (variants : List String)
        (dbFetch : String → Except Unit (List Doc)) (query : String)
        (docs : List Doc),
      queryWithRAGRetrieve storeInit sim mmr variants dbFetch query = .ok docs →
      docs ≠ []) := by
  refine ⟨?_, ?_, ?_⟩
  · intro sim mmr variants dbFetch query
    rfl
  · intro sim mmr variants dbFetch query hmem hdb
    simp only [queryWithRAGRetrieve, Bool.not_true, Bool.false_eq_true, if_false,
      hmem]
    rcases hdb with hdb | hdb
    · simp [hdb, deduplicateDocuments, dedupGo]
    · simp [hdb]
  · intro storeInit sim mmr variants dbFetch query docs hok
    intro hnil
    subst hnil
    simp only [queryWithRAGRetrieve] at hok
    by_cases hs : storeInit
    · rw [if_neg (by simp [hs])] at hok
      by_cases hd : (if (getRelevantDocsFromMemory true sim mmr variants).length < 3 then
          match dbFetch query with
          | .ok db => deduplicateDocuments
              (getRelevantDocsFromMemory true sim mmr variants ++ db)
          | .error _ => getRelevantDocsFromMemory true sim mmr variants
        else getRelevantDocsFromMemory true sim mmr variants).isEmpty
      · rw [hs] at hok
        rw [if_pos hd] at hok
        cases hok
      · rw [hs] at hok
        rw [if_neg hd] at hok
        injection hok with hok
        rw [hok] at hd
        simp at hd
    · have hs' : storeInit = false := by simpa using hs
      rw [hs'] at hok
      cases hok

/-- Witness for C4: with the store uninitialized and a concrete database
oracle, the retrieval prefix yields the distinct failure, and retrieval
returning zero chunks over both tiers yields the user-facing failure. -/
theorem queryWithRAG_failfast_witness :
    queryWithRAGRetrieve false (fun _ => []) (fun _ => []) ["q"]
        (fun _ => .ok []) "q" = .error .noDocumentsProcessed ∧
    queryWithRAGRetrieve true (fun _ => []) (fun _ => []) ["q"]
        (fun _ => .ok []) "q" = .error .noRelevantInformation := by
  refine ⟨queryWithRAG_failfast.1 (fun _ => []) (fun _ => []) ["q"]
      (fun _ => .ok []) "q", ?_⟩
  exact queryWithRAG_failfast.2.1 (fun _ => []) (fun _ => []) ["q"]
    (fun _ => .ok []) "q" (by decide) (Or.inl rfl)

end DNAI
